import Mathlib

/-!
Verification of the escape-time evaluator and the delimited-pair parser
from `src/main.rs`.

The Rust code works on `Complex<f64>` (the `num` crate) and on `&str`.
The embedding models:
* `f64` values by exact rationals `ℚ`; every claim below is a
  control-flow property of the comparison logic (the first index whose
  squared magnitude exceeds 4, the limit-0 case, monotonicity in the
  limit, magnitude versus squared magnitude), stated over the same
  exact arithmetic in which the spec words them;
* `Complex<f64>` by a two-field structure `Cplx` mirroring the crate's
  struct, with componentwise addition, the standard product, and
  `norm_sqr = re² + im²`;
* `&str` by `List Char` for the fault-free character-level behavior,
  and by a UTF-8 byte model (`utf8Bytes`, `parse_pair_bytes`) where the
  byte index of `s.find` and the slices `&s[..index]` /
  `&s[index + 1..]` matter: there the slices abort when the position is
  not a character boundary, exactly as Rust string indexing panics, and
  the two models are proved to agree for one-byte separators.
-/

/-- Mirror of the `num` crate's `Complex<f64>` struct: a real and an
imaginary component, here an exact rational each. -/
@[ext]
structure Cplx where
  re : ℚ
  im : ℚ
deriving DecidableEq

namespace Cplx

/-- Componentwise complex addition, as provided by the `num` crate. -/
def add (x y : Cplx) : Cplx := ⟨x.re + y.re, x.im + y.im⟩

/-- Standard complex multiplication, as provided by the `num` crate. -/
def mul (x y : Cplx) : Cplx :=
  ⟨x.re * y.re - x.im * y.im, x.re * y.im + x.im * y.re⟩

/-- `Complex::norm_sqr`: the squared distance from the origin, `re² + im²`. -/
def norm_sqr (x : Cplx) : ℚ := x.re * x.re + x.im * x.im

instance : Add Cplx := ⟨add⟩

instance : Mul Cplx := ⟨mul⟩

@[simp] lemma add_def (x y : Cplx) : x + y = ⟨x.re + y.re, x.im + y.im⟩ := rfl

@[simp] lemma mul_def (x y : Cplx) :
    x * y = ⟨x.re * y.re - x.im * y.im, x.re * y.im + x.im * y.re⟩ := rfl

/-- The complex zero `Complex { re: 0.0, im: 0.0 }`. -/
def zero : Cplx := ⟨0, 0⟩

end Cplx

/-- One loop body of `escape_time`: `z = z * z + c`. -/
def step (c z : Cplx) : Cplx := z * z + c

/-- The loop of `escape_time`, starting from accumulator `z` at
iteration index `i` with `fuel` iterations left to run: update `z`,
test `z.norm_sqr() > 4.0`, return `Some i` on escape, else continue
with the next index. -/
def escapeAux (c : Cplx) (z : Cplx) (i : ℕ) : ℕ → Option ℕ
  | 0 => none
  | fuel + 1 =>
    if 4 < (step c z).norm_sqr then some i else escapeAux c (step c z) (i + 1) fuel

/-- `escape_time` from `src/main.rs`: iterate `z = z * z + c` from
`z = 0` for at most `limit` iterations (indices `0` to `limit - 1`),
returning `Some i` at the first index where `z.norm_sqr() > 4.0`, and
`None` if the loop completes. -/
def escape_time (c : Cplx) (limit : ℕ) : Option ℕ :=
  escapeAux c Cplx.zero 0 limit

/-- The iterate sequence: `iterFrom c z n` is the accumulator after `n`
updates `z := z * z + c` starting from `z`. -/
def iterFrom (c z : Cplx) : ℕ → Cplx
  | 0 => z
  | n + 1 => step c (iterFrom c z n)

/-- The Mandelbrot iterate starting from `z = 0`: `mandelIter c n` is
the accumulator after the first `n` loop iterations of
`escape_time c`. -/
def mandelIter (c : Cplx) (n : ℕ) : Cplx := iterFrom c Cplx.zero n

/-- The escape test of the spec's magnitude variant: the true magnitude
(the square root of the squared magnitude) exceeds the threshold 2. -/
def magEsc (z : Cplx) : Prop := 2 < Real.sqrt (z.norm_sqr : ℝ)

lemma magEsc_iff (z : Cplx) : magEsc z ↔ 4 < z.norm_sqr := by
  unfold magEsc
  rw [Real.lt_sqrt (by norm_num), show ((2 : ℝ) ^ 2) = ((4 : ℚ) : ℝ) by norm_num,
    Rat.cast_lt]

instance : DecidablePred magEsc := fun z =>
  decidable_of_iff (4 < z.norm_sqr) (magEsc_iff z).symm

/-- The loop of the magnitude variant of `escape_time`: identical to
`escapeAux` except that the escape test compares the true magnitude of
the updated accumulator with 2 instead of the squared magnitude
with 4. -/
def escapeAuxMag (c : Cplx) (z : Cplx) (i : ℕ) : ℕ → Option ℕ
  | 0 => none
  | fuel + 1 =>
    if magEsc (step c z) then some i else escapeAuxMag c (step c z) (i + 1) fuel

/-- The magnitude variant of `escape_time` described by the spec: test
`magnitude > 2.0` in place of `norm_sqr > 4.0`. -/
def escape_time_mag (c : Cplx) (limit : ℕ) : Option ℕ :=
  escapeAuxMag c Cplx.zero 0 limit

/-- Value of an ASCII digit character, `None` on a non-digit. -/
def digit? (c : Char) : Option ℕ :=
  if '0' ≤ c ∧ c ≤ '9' then some (c.toNat - '0'.toNat) else none

/-- Accumulate a decimal value over characters; `None` as soon as a
non-digit appears. -/
def digitsValAux : ℕ → List Char → Option ℕ
  | acc, [] => some acc
  | acc, c :: cs =>
    match digit? c with
    | some d => digitsValAux (10 * acc + d) cs
    | none => none

/-- Decimal value of a non-empty all-digit string; `None` otherwise. -/
def digitsVal : List Char → Option ℕ
  | [] => none
  | cs => digitsValAux 0 cs

/-- Decimal value of a possibly empty all-digit string (the empty
string counts 0); `None` on a non-digit. -/
def digitsValOpt (cs : List Char) : Option ℕ := digitsValAux 0 cs

/-- Modelled from the spec: Rust's `i32::from_str` (the standard
library `FromStr` impl used by `parse_pair::<i32>`; its code is not in
this repository). Per the spec's capability contract it parses an
optional sign followed by one or more decimal digits, consuming the
whole string, failing on anything else and on overflow of the 32-bit
range. -/
def i32FromStr (cs : List Char) : Option ℤ :=
  match cs with
  | '+' :: rest =>
    (digitsVal rest).bind fun n => if n ≤ 2 ^ 31 - 1 then some (n : ℤ) else none
  | '-' :: rest =>
    (digitsVal rest).bind fun n => if n ≤ 2 ^ 31 then some (-(n : ℤ)) else none
  | rest =>
    (digitsVal rest).bind fun n => if n ≤ 2 ^ 31 - 1 then some (n : ℤ) else none

/-- Decimal mantissa of a floating-point literal: either a non-empty
digit string with an optional point and optional fraction digits, or a
point followed by a non-empty digit string. Values are exact
rationals. -/
def f64Mantissa (cs : List Char) : Option ℚ :=
  match cs.findIdx? (· = '.') with
  | none => (digitsVal cs).map (fun n => (n : ℚ))
  | some i =>
    match cs.take i with
    | [] =>
      (digitsVal (cs.drop (i + 1))).map fun m =>
        (m : ℚ) / 10 ^ (cs.drop (i + 1)).length
    | ip =>
      (digitsVal ip).bind fun n =>
        (digitsValOpt (cs.drop (i + 1))).map fun m =>
          (n : ℚ) + (m : ℚ) / 10 ^ (cs.drop (i + 1)).length

/-- Modelled from the spec: Rust's `f64::from_str` (standard library
code, not in this repository), restricted to the plain decimal
fragment the spec's test vectors exercise: an optional sign and a
decimal mantissa. Exponents and the special values are outside every
input considered here. Values are exact rationals. -/
def f64FromStr (cs : List Char) : Option ℚ :=
  match cs with
  | '+' :: rest => f64Mantissa rest
  | '-' :: rest => (f64Mantissa rest).map Neg.neg
  | rest => f64Mantissa rest

/-- `parse_pair` from `src/main.rs`, generic over the parsing
capability of the target type: find the first occurrence of
`separator`, split around it, parse both sides, and pair the results.
The string is modelled at the character level; `findIdx?` is the
character index of `s.find(separator)`. -/
def parse_pair {T : Type} (from_str : List Char → Option T) (s : List Char)
    (separator : Char) : Option (T × T) :=
  match s.findIdx? (· = separator) with
  | none => none
  | some index =>
    match from_str (s.take index), from_str (s.drop (index + 1)) with
    | some l, some r => some (l, r)
    | _, _ => none

/-- UTF-8 encoding of one character (code point) as byte values,
following the standard 1-to-4-byte encoding Rust strings use. -/
def charBytes (c : Char) : List ℕ :=
  let n := c.toNat
  if n < 128 then [n]
  else if n < 2048 then [192 + n / 64, 128 + n % 64]
  else if n < 65536 then [224 + n / 4096, 128 + n / 64 % 64, 128 + n % 64]
  else [240 + n / 262144, 128 + n / 4096 % 64, 128 + n / 64 % 64, 128 + n % 64]

/-- The UTF-8 byte string of a character string, as Rust lays a `&str`
out in memory. -/
def utf8Bytes (cs : List Char) : List ℕ := (cs.map charBytes).flatten

/-- Result of a computation that indexes into a string at a byte
position: either a value, or the abort Rust raises when the position
is out of range or not a character boundary. -/
inductive SliceResult (α : Type) where
  | fault : SliceResult α
  | ok : α → SliceResult α
deriving DecidableEq

/-- The characters of the Rust slice `&s[..j]` of a byte position `j`:
walk the characters consuming their byte lengths; `none` models the
abort when `j` is past the end or falls inside a character's bytes. -/
def sliceTo : List Char → ℕ → Option (List Char)
  | _, 0 => some []
  | [], _ + 1 => none
  | c :: cs, j + 1 =>
    if (charBytes c).length ≤ j + 1 then
      (sliceTo cs (j + 1 - (charBytes c).length)).map (c :: ·)
    else none

/-- The characters of the Rust slice `&s[j..]` of a byte position `j`:
`none` models the abort when `j` is past the end or falls inside a
character's bytes. -/
def sliceFrom : List Char → ℕ → Option (List Char)
  | cs, 0 => some cs
  | [], _ + 1 => none
  | c :: cs, j + 1 =>
    if (charBytes c).length ≤ j + 1 then
      sliceFrom cs (j + 1 - (charBytes c).length)
    else none

/-- `str::find` as the Rust code uses it: the byte index of the first
character occurrence of `sep`, that is, the total byte length of the
characters before it. -/
def findBytePos (s : List Char) (sep : Char) : Option ℕ :=
  (s.findIdx? (· = sep)).map fun i => (utf8Bytes (s.take i)).length

/-- Byte-level model of `parse_pair` from `src/main.rs`: `find` yields
the byte index of the first occurrence of `separator`, and the two
Rust slices `&s[..index]` and `&s[index + 1..]` are taken at byte
positions, aborting (`fault`) when `index + 1` is not a character
boundary — exactly the panic Rust string indexing raises. The parsing
of the two sides is as in `parse_pair`. -/
def parse_pair_bytes {T : Type} (from_str : List Char → Option T) (s : List Char)
    (separator : Char) : SliceResult (Option (T × T)) :=
  match findBytePos s separator with
  | none => .ok none
  | some index =>
    match sliceTo s index, sliceFrom s (index + 1) with
    | some left, some right =>
      .ok (match from_str left, from_str right with
        | some l, some r => some (l, r)
        | _, _ => none)
    | _, _ => .fault

lemma charBytes_ascii {c : Char} (h : c.toNat < 128) : charBytes c = [c.toNat] := by
  simp [charBytes, h]

lemma charBytes_ascii_mem {b : ℕ} {c : Char} (hb : b < 128)
    (hmem : b ∈ charBytes c) : c.toNat = b := by
  unfold charBytes at hmem
  by_cases h1 : c.toNat < 128
  · simp [h1] at hmem
    omega
  · exfalso
    by_cases h2 : c.toNat < 2048
    · simp [h1, h2] at hmem
      rcases hmem with h | h <;> omega
    · by_cases h3 : c.toNat < 65536
      · simp [h1, h2, h3] at hmem
        rcases hmem with h | h | h <;> omega
      · simp [h1, h2, h3] at hmem
        rcases hmem with h | h | h | h <;> omega

lemma charBytes_length_pos (c : Char) : 1 ≤ (charBytes c).length := by
  simp only [charBytes]
  split_ifs <;> simp

lemma sliceTo_zero (cs : List Char) : sliceTo cs 0 = some [] := by
  cases cs <;> rfl

lemma sliceFrom_zero (cs : List Char) : sliceFrom cs 0 = some cs := by
  cases cs <;> rfl

lemma sliceTo_encode (A B : List Char) :
    sliceTo (A ++ B) (utf8Bytes A).length = some A := by
  induction A with
  | nil => simp [utf8Bytes, sliceTo_zero]
  | cons c A ih =>
    have hlen : (utf8Bytes (c :: A)).length =
        (charBytes c).length + (utf8Bytes A).length := by
      simp [utf8Bytes]
    obtain ⟨j, hj⟩ : ∃ j, (charBytes c).length + (utf8Bytes A).length = j + 1 :=
      ⟨(charBytes c).length + (utf8Bytes A).length - 1, by
        have := charBytes_length_pos c
        omega⟩
    rw [hlen, List.cons_append, hj, sliceTo,
      if_pos (by omega : (charBytes c).length ≤ j + 1),
      show j + 1 - (charBytes c).length = (utf8Bytes A).length by omega, ih]
    rfl

lemma sliceFrom_encode (A B : List Char) :
    sliceFrom (A ++ B) (utf8Bytes A).length = some B := by
  induction A with
  | nil => simp [utf8Bytes, sliceFrom_zero]
  | cons c A ih =>
    have hlen : (utf8Bytes (c :: A)).length =
        (charBytes c).length + (utf8Bytes A).length := by
      simp [utf8Bytes]
    obtain ⟨j, hj⟩ : ∃ j, (charBytes c).length + (utf8Bytes A).length = j + 1 :=
      ⟨(charBytes c).length + (utf8Bytes A).length - 1, by
        have := charBytes_length_pos c
        omega⟩
    rw [hlen, List.cons_append, hj, sliceFrom,
      if_pos (by omega : (charBytes c).length ≤ j + 1),
      show j + 1 - (charBytes c).length = (utf8Bytes A).length by omega, ih]

lemma split_at_getElem (s : List Char) (sep : Char) (i : ℕ)
    (hget : s[i]? = some sep) : s = s.take i ++ sep :: s.drop (i + 1) := by
  obtain ⟨hlt, hgetl⟩ := List.getElem?_eq_some_iff.mp hget
  conv_lhs => rw [← List.take_append_drop i s]
  rw [List.drop_eq_getElem_cons hlt, hgetl]

lemma sliceTo_at_first (s : List Char) (sep : Char) (i : ℕ)
    (hget : s[i]? = some sep) :
    sliceTo s ((utf8Bytes (s.take i)).length) = some (s.take i) := by
  have hsplit := split_at_getElem s sep i hget
  calc sliceTo s ((utf8Bytes (s.take i)).length)
      = sliceTo (s.take i ++ sep :: s.drop (i + 1))
          ((utf8Bytes (s.take i)).length) := by rw [← hsplit]
    _ = some (s.take i) := sliceTo_encode _ _

lemma sliceFrom_at_first (s : List Char) (sep : Char) (hascii : sep.toNat < 128)
    (i : ℕ) (hget : s[i]? = some sep) :
    sliceFrom s ((utf8Bytes (s.take i)).length + 1) = some (s.drop (i + 1)) := by
  have hsplit := split_at_getElem s sep i hget
  have hkey : s = (s.take i ++ [sep]) ++ s.drop (i + 1) := by
    conv_lhs => rw [hsplit]
    simp
  have hlen : (utf8Bytes (s.take i)).length + 1 =
      (utf8Bytes (s.take i ++ [sep])).length := by
    simp [utf8Bytes, charBytes_ascii hascii]
  calc sliceFrom s ((utf8Bytes (s.take i)).length + 1)
      = sliceFrom ((s.take i ++ [sep]) ++ s.drop (i + 1))
          ((utf8Bytes (s.take i ++ [sep])).length) := by rw [← hkey, ← hlen]
    _ = some (s.drop (i + 1)) := sliceFrom_encode _ _

lemma getElem?_of_findIdx?_eq_some (s : List Char) (sep : Char) (i : ℕ)
    (h : s.findIdx? (· = sep) = some i) : s[i]? = some sep := by
  obtain ⟨hlt, hp, -⟩ := List.findIdx?_eq_some_iff_getElem.mp h
  exact List.getElem?_eq_some_iff.mpr ⟨hlt, by simpa using hp⟩

lemma parse_pair_bytes_ascii {T : Type} (from_str : List Char → Option T)
    (s : List Char) (sep : Char) (hascii : sep.toNat < 128) :
    parse_pair_bytes from_str s sep = SliceResult.ok (parse_pair from_str s sep) := by
  cases hidx : s.findIdx? (· = sep) with
  | none => simp [parse_pair_bytes, parse_pair, findBytePos, hidx]
  | some i =>
    have hget := getElem?_of_findIdx?_eq_some s sep i hidx
    simp only [parse_pair_bytes, parse_pair, findBytePos, hidx, Option.map_some',
      sliceTo_at_first s sep i hget, sliceFrom_at_first s sep hascii i hget]

lemma iterFrom_step (c z : Cplx) (n : ℕ) :
    iterFrom c (step c z) n = iterFrom c z (n + 1) := by
  induction n with
  | zero => rfl
  | succ n ih => simp [iterFrom, ih]

lemma escapeAux_eq_some_iff (c z : Cplx) (i k fuel : ℕ) :
    escapeAux c z i fuel = some k ↔
      ∃ j, j < fuel ∧ k = i + j ∧ 4 < (iterFrom c z (j + 1)).norm_sqr ∧
        ∀ m < j, (iterFrom c z (m + 1)).norm_sqr ≤ 4 := by
  induction fuel generalizing z i with
  | zero => simp [escapeAux]
  | succ fuel ih =>
    rw [escapeAux]
    by_cases h : 4 < (step c z).norm_sqr
    · rw [if_pos h]
      constructor
      · intro hsome
        obtain rfl : i = k := by injection hsome
        exact ⟨0, Nat.succ_pos _, (Nat.add_zero i).symm, by simpa [iterFrom] using h,
          fun m hm => absurd hm (Nat.not_lt_zero m)⟩
      · rintro ⟨j, hj, rfl, hesc, hmin⟩
        cases j with
        | zero => rfl
        | succ j =>
          exact absurd (by simpa [iterFrom] using hmin 0 (Nat.succ_pos _)) (not_le.mpr h)
    · rw [if_neg h, ih (step c z) (i + 1)]
      constructor
      · rintro ⟨j, hj, rfl, hesc, hmin⟩
        refine ⟨j + 1, by omega, by omega, ?_, ?_⟩
        · rw [← iterFrom_step c z (j + 1)]
          exact hesc
        · intro m hm
          cases m with
          | zero => simpa [iterFrom] using not_lt.mp h
          | succ m =>
            rw [← iterFrom_step c z (m + 1)]
            exact hmin m (by omega)
      · rintro ⟨j, hj, hk, hesc, hmin⟩
        cases j with
        | zero => exact absurd (by simpa [iterFrom] using hesc) h
        | succ j =>
          refine ⟨j, by omega, by omega, ?_, ?_⟩
          · rw [iterFrom_step c z (j + 1)]
            exact hesc
          · intro m hm
            rw [iterFrom_step c z (m + 1)]
            exact hmin (m + 1) (by omega)

lemma escapeAux_eq_none_iff (c z : Cplx) (i fuel : ℕ) :
    escapeAux c z i fuel = none ↔
      ∀ j < fuel, (iterFrom c z (j + 1)).norm_sqr ≤ 4 := by
  induction fuel generalizing z i with
  | zero => simp [escapeAux]
  | succ fuel ih =>
    rw [escapeAux]
    by_cases h : 4 < (step c z).norm_sqr
    · rw [if_pos h]
      refine iff_of_false (by simp) ?_
      intro hall
      exact absurd (by simpa [iterFrom] using hall 0 (Nat.succ_pos _)) (not_le.mpr h)
    · rw [if_neg h, ih (step c z) (i + 1)]
      constructor
      · intro hall j hj
        cases j with
        | zero => simpa [iterFrom] using not_lt.mp h
        | succ j =>
          rw [← iterFrom_step c z (j + 1)]
          exact hall j (by omega)
      · intro hall j hj
        rw [iterFrom_step c z (j + 1)]
        exact hall (j + 1) (by omega)

lemma escape_time_eq_some_iff (c : Cplx) (limit k : ℕ) :
    escape_time c limit = some k ↔
      k < limit ∧ 4 < (mandelIter c (k + 1)).norm_sqr ∧
        ∀ m < k, (mandelIter c (m + 1)).norm_sqr ≤ 4 := by
  rw [escape_time, escapeAux_eq_some_iff]
  constructor
  · rintro ⟨j, hj, rfl, hesc, hmin⟩
    refine ⟨by omega, by simpa [mandelIter] using hesc, fun m hm => ?_⟩
    simpa [mandelIter] using hmin m (by omega)
  · rintro ⟨hk, hesc, hmin⟩
    refine ⟨k, hk, by omega, by simpa [mandelIter] using hesc, fun m hm => ?_⟩
    simpa [mandelIter] using hmin m hm

lemma escape_time_eq_none_iff (c : Cplx) (limit : ℕ) :
    escape_time c limit = none ↔
      ∀ i < limit, (mandelIter c (i + 1)).norm_sqr ≤ 4 := by
  rw [escape_time, escapeAux_eq_none_iff]
  exact Iff.rfl

lemma escapeAuxMag_eq (c z : Cplx) (i fuel : ℕ) :
    escapeAuxMag c z i fuel = escapeAux c z i fuel := by
  induction fuel generalizing z i with
  | zero => rfl
  | succ fuel ih =>
    rw [escapeAuxMag, escapeAux]
    by_cases h : 4 < (step c z).norm_sqr
    · rw [if_pos h, if_pos ((magEsc_iff _).mpr h)]
    · rw [if_neg h, if_neg (fun hm => h ((magEsc_iff _).mp hm)), ih]

lemma findIdx?_eq_some_of_first (s : List Char) (sep : Char) (i : ℕ)
    (hget : s[i]? = some sep) (hfirst : ∀ j < i, s[j]? ≠ some sep) :
    s.findIdx? (· = sep) = some i := by
  induction s generalizing i with
  | nil => simp at hget
  | cons a t ih =>
    cases i with
    | zero =>
      have ha : a = sep := by simpa using hget
      simp [List.findIdx?_cons, ha]
    | succ i =>
      have ha : a ≠ sep := by simpa using hfirst 0 (Nat.succ_pos _)
      have hget' : t[i]? = some sep := by simpa using hget
      have hfirst' : ∀ j < i, t[j]? ≠ some sep := fun j hj => by
        simpa using hfirst (j + 1) (by omega)
      rw [List.findIdx?_cons, if_neg (by simpa using ha), List.findIdx?_succ,
        ih i hget' hfirst']
      rfl

/-- Claim C1: for every complex `c` and every limit, `escape_time c limit`
returns `some i` exactly when `i < limit` is the first 0-based iteration
index at which the iterate (starting from `z = 0` and updated by
`z := z * z + c` before each test) has squared magnitude strictly greater
than 4, stopping at that index; and it returns `none` (inconclusive) when
no such index exists among the `limit` iterations. -/
theorem escape_time_first_escape (c : Cplx) (limit : ℕ) :
    (∀ i, escape_time c limit = some i ↔
      i < limit ∧ 4 < (mandelIter c (i + 1)).norm_sqr ∧
        ∀ j < i, (mandelIter c (j + 1)).norm_sqr ≤ 4) ∧
    (escape_time c limit = none ↔
      ∀ i < limit, (mandelIter c (i + 1)).norm_sqr ≤ 4) :=
  ⟨fun i => escape_time_eq_some_iff c limit i, escape_time_eq_none_iff c limit⟩

/-- Concrete instance of the escape characterization at `c = 3`, where
the first update already exceeds the threshold. -/
theorem escape_time_first_escape_witness : escape_time ⟨3, 0⟩ 1 = some 0 :=
  ((escape_time_first_escape ⟨3, 0⟩ 1).1 0).mpr
    ⟨Nat.one_pos, by norm_num [mandelIter, iterFrom, step, Cplx.zero, Cplx.norm_sqr],
      fun j hj => absurd hj (Nat.not_lt_zero j)⟩

/-- Counterexample to claim C2 as stated: not every separator character
is fault-free. In "1°2" the two-byte separator sits at byte index 1,
position 2 is not a character boundary, and the byte-level parse
aborts — the panic of the slice `&s[index + 1..]` in the Rust code. -/
theorem parse_pair_fault_counterexample :
    parse_pair_bytes i32FromStr ("1°2".toList) '°' = SliceResult.fault := by decide

/-- Claim C2 amended: for every single-byte (ASCII) separator the
byte-level `parse_pair` never faults — it returns exactly the ordinary
Option value of the parse — and `escape_time` always returns an
ordinary Option value for every input. -/
theorem parse_pair_ascii_total {T : Type} (from_str : List Char → Option T)
    (s : List Char) (sep : Char) (hascii : sep.toNat < 128) (c : Cplx) (limit : ℕ) :
    parse_pair_bytes from_str s sep = SliceResult.ok (parse_pair from_str s sep) ∧
    (escape_time c limit = none ∨ ∃ i, escape_time c limit = some i) := by
  refine ⟨parse_pair_bytes_ascii from_str s sep hascii, ?_⟩
  cases h : escape_time c limit with
  | none => exact Or.inl rfl
  | some i => exact Or.inr ⟨i, rfl⟩

/-- Concrete instance of the fault-free behavior at the ASCII
separator of the source tests. -/
theorem parse_pair_ascii_total_witness :
    (parse_pair_bytes i32FromStr ("10,20".toList) ',' =
      SliceResult.ok (parse_pair i32FromStr ("10,20".toList) ',')) ∧
    (escape_time ⟨0, 0⟩ 0 = none ∨ ∃ i, escape_time ⟨0, 0⟩ 0 = some i) :=
  parse_pair_ascii_total i32FromStr ("10,20".toList) ',' (by decide) ⟨0, 0⟩ 0

/-- Splitting description of `parse_pair` over the char-level model
(fault-free by construction): `none` when the separator is absent,
split at the first occurrence, pair of the two successes in order,
`none` when either side fails. -/
lemma parse_pair_split_first_char {T : Type} (from_str : List Char → Option T)
    (s : List Char) (sep : Char) :
    (sep ∉ s → parse_pair from_str s sep = none) ∧
    ∀ index, s[index]? = some sep → (∀ j < index, s[j]? ≠ some sep) →
      (∀ l r, from_str (s.take index) = some l →
        from_str (s.drop (index + 1)) = some r →
        parse_pair from_str s sep = some (l, r)) ∧
      ((from_str (s.take index) = none ∨ from_str (s.drop (index + 1)) = none) →
        parse_pair from_str s sep = none) := by
  constructor
  · intro hmem
    have hnone : s.findIdx? (· = sep) = none :=
      List.findIdx?_eq_none_iff.mpr fun x hx => by
        simp only [decide_eq_false_iff_not]
        intro h
        exact hmem (h ▸ hx)
    simp [parse_pair, hnone]
  · intro index hget hfirst
    have hidx : s.findIdx? (· = sep) = some index :=
      findIdx?_eq_some_of_first s sep index hget hfirst
    constructor
    · intro l r hl hr
      simp [parse_pair, hidx, hl, hr]
    · rintro (h | h)
      · simp [parse_pair, hidx, h]
      · cases hl : from_str (s.take index) with
        | none => simp [parse_pair, hidx, hl]
        | some l => simp [parse_pair, hidx, hl, h]

/-- Counterexample to claim C3 as stated: not every separator character
yields a split. In "1°2" the separator occurs and both sides parse as
integers, so the claim demands the pair (1, 2); instead the byte-level
parse aborts at the non-boundary position after the two-byte
separator. -/
theorem parse_pair_split_counterexample :
    parse_pair_bytes i32FromStr ("1°2".toList) '°' ≠
      SliceResult.ok (some (1, 2)) := by decide

/-- Claim C3 amended: for every single-byte (ASCII) separator,
`parse_pair` returns `none` when the separator is absent from the
string; otherwise it splits at the first occurrence of the separator,
parses the left part (everything before it) and the right part
(everything after it, separator excluded) independently, returns the
pair of the two successes in that order, and returns `none` with no
partial result when either side fails. -/
theorem parse_pair_split_first_ascii {T : Type} (from_str : List Char → Option T)
    (s : List Char) (sep : Char) (hascii : sep.toNat < 128) :
    (sep ∉ s → parse_pair_bytes from_str s sep = SliceResult.ok none) ∧
    ∀ index, s[index]? = some sep → (∀ j < index, s[j]? ≠ some sep) →
      (∀ l r, from_str (s.take index) = some l →
        from_str (s.drop (index + 1)) = some r →
        parse_pair_bytes from_str s sep = SliceResult.ok (some (l, r))) ∧
      ((from_str (s.take index) = none ∨ from_str (s.drop (index + 1)) = none) →
        parse_pair_bytes from_str s sep = SliceResult.ok none) := by
  have hb := parse_pair_bytes_ascii from_str s sep hascii
  have hc := parse_pair_split_first_char from_str s sep
  refine ⟨fun hmem => ?_, fun index hget hfirst => ?_⟩
  · rw [hb, hc.1 hmem]
  · obtain ⟨h1, h2⟩ := hc.2 index hget hfirst
    exact ⟨fun l r hl hr => by rw [hb, h1 l r hl hr],
      fun h => by rw [hb, h2 h]⟩

/-- Concrete instances of the splitting description at an ASCII
separator: absent separator, a successful split, and a right-side
failure. -/
theorem parse_pair_split_first_ascii_witness :
    parse_pair_bytes i32FromStr ("10".toList) ',' = SliceResult.ok none ∧
    parse_pair_bytes i32FromStr ("10,20".toList) ',' = SliceResult.ok (some (10, 20)) ∧
    parse_pair_bytes i32FromStr ("10,".toList) ',' = SliceResult.ok none :=
  ⟨(parse_pair_split_first_ascii i32FromStr ("10".toList) ',' (by decide)).1
      (by decide),
    ((parse_pair_split_first_ascii i32FromStr ("10,20".toList) ',' (by decide)).2 2
      (by decide) (by decide)).1 10 20 (by decide) (by decide),
    ((parse_pair_split_first_ascii i32FromStr ("10,".toList) ',' (by decide)).2 2
      (by decide) (by decide)).2 (Or.inr (by decide))⟩

/-- Claim C4: with limit 0 the loop body never runs, the accumulator is
never updated, and the result is inconclusive. -/
theorem escape_time_zero_limit (c : Cplx) : escape_time c 0 = none := rfl

/-- Claim C5: an escape result is stable under enlarging the limit: if
`escape_time c L` escapes at index `i`, then `escape_time c M` escapes
at the same index for every `M > i`. -/
theorem escape_time_escape_stable (c : Cplx) (L i M : ℕ)
    (h : escape_time c L = some i) (hM : i < M) : escape_time c M = some i := by
  rw [escape_time_eq_some_iff] at h
  exact (escape_time_eq_some_iff c M i).mpr ⟨hM, h.2.1, h.2.2⟩

/-- Concrete instance of limit stability: escape at index 0 with limit
1 persists at limit 2. -/
theorem escape_time_escape_stable_witness : escape_time ⟨3, 0⟩ 2 = some 0 :=
  escape_time_escape_stable ⟨3, 0⟩ 1 0 2
    (by norm_num [escape_time, escapeAux, step, Cplx.zero, Cplx.norm_sqr]) (by decide)

/-- Claim C6: when `c.re² + c.im² > 4`, the first update makes `z = c`,
whose squared magnitude already exceeds 4, so escape is detected at
iteration index 0 for every limit of at least 1. -/
theorem escape_time_large_c (c : Cplx) (hc : 4 < c.norm_sqr) (limit : ℕ)
    (hl : 1 ≤ limit) : escape_time c limit = some 0 := by
  have h1 : mandelIter c 1 = c := by
    simp [mandelIter, iterFrom, step, Cplx.zero]
  refine (escape_time_eq_some_iff c limit 0).mpr
    ⟨hl, ?_, fun m hm => absurd hm (Nat.not_lt_zero m)⟩
  rw [h1]
  exact hc

/-- Concrete instance with `c = 3i`, squared magnitude 9. -/
theorem escape_time_large_c_witness : escape_time ⟨0, 3⟩ 2 = some 0 :=
  escape_time_large_c ⟨0, 3⟩ (by norm_num [Cplx.norm_sqr]) 2 (by decide)

/-- Claim C7: the exact test vectors of `test_parse_pair` in
`src/main.rs`. -/
theorem parse_pair_test_vectors :
    parse_pair i32FromStr ("".toList) ',' = none ∧
    parse_pair i32FromStr ("10,".toList) ',' = none ∧
    parse_pair i32FromStr (",10".toList) ',' = none ∧
    parse_pair i32FromStr ("10,20".toList) ',' = some (10, 20) ∧
    parse_pair i32FromStr ("10,20xy".toList) ',' = none ∧
    parse_pair f64FromStr ("0.5x".toList) 'x' = none ∧
    parse_pair f64FromStr ("0.5x1.5".toList) 'x' = some (0.5, 1.5) := by
  refine ⟨by decide, by decide, by decide, by decide, by decide, ?_, ?_⟩
  · norm_num +decide [parse_pair, f64FromStr, f64Mantissa, digitsVal, digitsValAux,
      digitsValOpt, digit?]
  · norm_num +decide [parse_pair, f64FromStr, f64Mantissa, digitsVal, digitsValAux,
      digitsValOpt, digit?, (by decide : '5'.toNat = 53), (by decide : '0'.toNat = 48),
      (by decide : '1'.toNat = 49)]

/-- Claim C8: the magnitude variant of the escape test (true magnitude
against 2) makes exactly the same escape decisions as the implemented
squared-magnitude test (against 4): the two evaluators agree on every
input. -/
theorem escape_time_mag_agrees (c : Cplx) (limit : ℕ) :
    escape_time_mag c limit = escape_time c limit :=
  escapeAuxMag_eq c Cplx.zero 0 limit

/-- Claim C9: for a single-byte (ASCII) separator, the byte position of
its first occurrence is followed by a character boundary: the bytes
before the position encode exactly the characters before the
separator, the byte at the position is the separator itself, the bytes
from position + 1 encode exactly the characters after the separator,
and the separator byte does not occur before the position — so the
Rust slices `&s[..index]` and `&s[index + 1..]` are both well-defined
strings. -/
theorem parse_pair_byte_boundary (s : List Char) (sep : Char)
    (hascii : sep.toNat < 128) (index : ℕ) (hget : s[index]? = some sep)
    (hfirst : ∀ j < index, s[j]? ≠ some sep) :
    (utf8Bytes s).take (utf8Bytes (s.take index)).length = utf8Bytes (s.take index) ∧
    (utf8Bytes s)[(utf8Bytes (s.take index)).length]? = some sep.toNat ∧
    (utf8Bytes s).drop ((utf8Bytes (s.take index)).length + 1) =
      utf8Bytes (s.drop (index + 1)) ∧
    sep.toNat ∉ utf8Bytes (s.take index) := by
  obtain ⟨hlt, hgetl⟩ := List.getElem?_eq_some_iff.mp hget
  have hsplit : s = s.take index ++ sep :: s.drop (index + 1) := by
    conv_lhs => rw [← List.take_append_drop index s]
    rw [List.drop_eq_getElem_cons hlt, hgetl]
  have hbytes : utf8Bytes s =
      utf8Bytes (s.take index) ++ sep.toNat :: utf8Bytes (s.drop (index + 1)) := by
    conv_lhs => rw [hsplit]
    simp [utf8Bytes, charBytes_ascii hascii]
  refine ⟨?_, ?_, ?_, ?_⟩
  · rw [hbytes]
    exact List.take_left _ _
  · rw [hbytes, List.getElem?_append_right (le_refl _)]
    simp
  · rw [hbytes, show utf8Bytes (s.take index) ++
        sep.toNat :: utf8Bytes (s.drop (index + 1)) =
        (utf8Bytes (s.take index) ++ [sep.toNat]) ++ utf8Bytes (s.drop (index + 1))
        by simp]
    exact List.drop_left' (by simp)
  · intro hmem
    rw [utf8Bytes] at hmem
    obtain ⟨l, hl, hbc⟩ := List.mem_flatten.mp hmem
    obtain ⟨c, hc, rfl⟩ := List.mem_map.mp hl
    have hcs : c = sep := Char.ext (UInt32.toNat.inj (charBytes_ascii_mem hascii hbc))
    subst hcs
    obtain ⟨n, hn⟩ := List.mem_iff_getElem?.mp hc
    obtain ⟨hnlen, -⟩ := List.getElem?_eq_some_iff.mp hn
    have hnlt : n < index := by
      simp [List.length_take] at hnlen
      omega
    rw [List.getElem?_take_of_lt hnlt] at hn
    exact hfirst n hnlt hn

/-- Concrete instance of the byte-boundary property on the string
"a,b" with the one-byte separator at character index 1. -/
theorem parse_pair_byte_boundary_witness :
    (utf8Bytes ("a,b".toList)).take
        (utf8Bytes (("a,b".toList).take 1)).length =
      utf8Bytes (("a,b".toList).take 1) ∧
    (utf8Bytes ("a,b".toList))[(utf8Bytes (("a,b".toList).take 1)).length]? =
      some ','.toNat ∧
    (utf8Bytes ("a,b".toList)).drop
        ((utf8Bytes (("a,b".toList).take 1)).length + 1) =
      utf8Bytes (("a,b".toList).drop (1 + 1)) ∧
    ','.toNat ∉ utf8Bytes (("a,b".toList).take 1) :=
  parse_pair_byte_boundary ("a,b".toList) ',' (by decide) 1 (by decide) (by decide)

/-- Claim C10: the two substrings go to the element parser verbatim, with
no trimming and no further splitting: a space or an extra separator in
the right substring makes the integer parse, and hence the pair parse,
fail. -/
theorem parse_pair_verbatim :
    i32FromStr (" 20".toList) = none ∧
    i32FromStr ("20,30".toList) = none ∧
    parse_pair i32FromStr ("10, 20".toList) ',' = none ∧
    parse_pair i32FromStr ("10,20,30".toList) ',' = none :=
  ⟨by decide, by decide, by decide, by decide⟩
